import Mathlib

/-!
# Verification of the RAG ingestion/retrieval pipeline

Shallow embedding of the document ingestion and retrieval core of the
`next-rag-chat` repository, together with theorems settling the frozen
claims about its specification.

Texts (JavaScript strings) are modelled as `List Char`; string indices are
`Nat`, with `-1`-style sentinel indices modelled as `Int`.  Similarity
scores (JavaScript numbers) are modelled as `ℚ`; the single floating-point
product in the code, `chunkSize * 0.7`, is modelled as the exact rational
`7 * chunkSize / 10` (for the chunk sizes appearing in the development —
the default `1000` and the test value `10` — the IEEE double product is
exactly the rational value, so the model agrees with the code there).
-/

namespace RagPipeline

/-! ## The chunker (`src/utils/document-processing.ts`, `chunkText`)

The ECMAScript whitespace set recognised by `String.prototype.trim`:
WhiteSpace (TAB, VT, FF, SP, NBSP, ZWNBSP, Unicode Zs) and
LineTerminator (LF, CR, LS, PS). -/

def isJsWhitespace (c : Char) : Bool :=
  c ∈ ([' ', '\t', '\n', '\r', '\x0b', '\x0c',
        ' ', ' ', ' ', ' ', ' ', ' ',
        ' ', ' ', ' ', ' ', ' ', ' ',
        ' ', ' ', ' ', ' ', ' ', '　',
        '﻿'] : List Char)

/-- `chunk.trim()`: strip leading and trailing whitespace. -/
def trim (l : List Char) : List Char :=
  ((l.dropWhile isJsWhitespace).reverse.dropWhile isJsWhitespace).reverse

/-- `s.lastIndexOf(c)`: index of the last occurrence of `c`, `-1` if absent. -/
def lastIndexOf (c : Char) : List Char → Int
  | [] => -1
  | a :: as =>
    let r := lastIndexOf c as
    if 0 ≤ r then r + 1 else if a = c then 0 else -1

/-- `const end = Math.min(start + chunkSize, text.length)`. -/
def tentativeEnd (text : List Char) (chunkSize start : Nat) : Nat :=
  min (start + chunkSize) text.length

/-- `let chunk = text.slice(start, end)`. -/
def tentativeChunk (text : List Char) (chunkSize start : Nat) : List Char :=
  (text.drop start).take (tentativeEnd text chunkSize start - start)

/-- `const breakPoint = Math.max(lastPeriod, lastNewline)` for the
tentative chunk. -/
def breakPointOf (chunk : List Char) : Int :=
  max (lastIndexOf '.' chunk) (lastIndexOf '\n' chunk)

/-- The test `breakPoint > start + chunkSize * 0.7`, over exact rationals
(cleared denominators).  Note the code compares the chunk-relative index
`breakPoint` against a threshold that includes the absolute offset
`start`. -/
def takesBoundary (text : List Char) (chunkSize start : Nat) : Bool :=
  10 * breakPointOf (tentativeChunk text chunkSize start) >
    10 * (start : Int) + 7 * (chunkSize : Int)

/-- One iteration of the `while` loop body of `chunkText` (lines 45-63):
returns the chunk pushed this iteration (before trimming) and the updated
`start`. -/
def chunkStep (text : List Char) (chunkSize start : Nat) : List Char × Nat :=
  let e := tentativeEnd text chunkSize start
  let chunk := tentativeChunk text chunkSize start
  if e < text.length then
    if takesBoundary text chunkSize start then
      let bp := (breakPointOf chunk).toNat
      (chunk.take (bp + 1), start + bp + 1)
    else
      (chunk, e)
  else
    (chunk, e)

/-- The `while (start < text.length)` loop of `chunkText`, with explicit
fuel: `none` means the fuel was exhausted before the loop finished (the
loop would still be running after `fuel` iterations). -/
def chunkLoop (text : List Char) (chunkSize : Nat) : Nat → Nat → Option (List (List Char))
  | 0, start => if start < text.length then none else some []
  | fuel + 1, start =>
    if start < text.length then
      let step := chunkStep text chunkSize start
      match chunkLoop text chunkSize fuel step.2 with
      | none => none
      | some rest =>
        some (if (trim step.1).isEmpty then rest else trim step.1 :: rest)
    else
      some []

/-- `chunkText(text, chunkSize = 1000, overlap = 200)`.  The `overlap`
parameter is part of the signature but is never read by the function
body.  `text.length` iterations always suffice when `chunkSize ≥ 1`
(proved below); for configurations where the loop diverges the model
returns `[]`. -/
def chunkText (text : List Char) (chunkSize overlap : Nat) : List (List Char) :=
  (chunkLoop text chunkSize text.length 0).getD []

/-! ### Basic facts about the chunker -/

lemma lastIndexOf_lt_length (c : Char) (l : List Char) :
    lastIndexOf c l < (l.length : Int) := by
  induction l with
  | nil => simp [lastIndexOf]
  | cons a as ih =>
    simp only [lastIndexOf, List.length_cons]
    split_ifs <;> push_cast <;> omega

lemma breakPointOf_lt_length (chunk : List Char) :
    breakPointOf chunk < (chunk.length : Int) := by
  exact max_lt (lastIndexOf_lt_length _ _) (lastIndexOf_lt_length _ _)

lemma length_tentativeChunk (text : List Char) (chunkSize start : Nat)
    (h : start < text.length) :
    (tentativeChunk text chunkSize start).length =
      tentativeEnd text chunkSize start - start := by
  simp only [tentativeChunk, List.length_take, List.length_drop, tentativeEnd]
  omega

/-- The final-iteration branch (line 62): the tentative chunk reaches the
end of the text. -/
lemma chunkStep_final (text : List Char) (chunkSize start : Nat)
    (h : ¬ tentativeEnd text chunkSize start < text.length) :
    chunkStep text chunkSize start =
      (tentativeChunk text chunkSize start, tentativeEnd text chunkSize start) := by
  simp only [chunkStep]
  rw [if_neg h]

/-- The hard-cut branch (line 59): no acceptable break point, take the full
slice, `start = end`. -/
lemma chunkStep_hardcut (text : List Char) (chunkSize start : Nat)
    (h : tentativeEnd text chunkSize start < text.length)
    (hb : takesBoundary text chunkSize start = false) :
    chunkStep text chunkSize start =
      (tentativeChunk text chunkSize start, tentativeEnd text chunkSize start) := by
  simp only [chunkStep]
  rw [if_pos h, if_neg (by simp [hb])]

/-- The boundary branch (lines 56-57): truncate at the break point and
advance to just past it. -/
lemma chunkStep_boundary (text : List Char) (chunkSize start : Nat)
    (h : tentativeEnd text chunkSize start < text.length)
    (hb : takesBoundary text chunkSize start = true) :
    chunkStep text chunkSize start =
      ((tentativeChunk text chunkSize start).take
          ((breakPointOf (tentativeChunk text chunkSize start)).toNat + 1),
        start + (breakPointOf (tentativeChunk text chunkSize start)).toNat + 1) := by
  simp only [chunkStep]
  rw [if_pos h, if_pos (by simp [hb])]

/-- One loop iteration advances `start`, stays within the text, and the
pushed (untrimmed) chunk is exactly the slice between the old and the new
`start`. -/
lemma chunkStep_spec (text : List Char) (chunkSize start : Nat)
    (h1 : 1 ≤ chunkSize) (h2 : start < text.length) :
    start < (chunkStep text chunkSize start).2 ∧
    (chunkStep text chunkSize start).2 ≤ text.length ∧
    (chunkStep text chunkSize start).1 =
      (text.drop start).take ((chunkStep text chunkSize start).2 - start) := by
  have hlen := length_tentativeChunk text chunkSize start h2
  have hend : start < tentativeEnd text chunkSize start := by
    simp only [tentativeEnd]; omega
  have hendle : tentativeEnd text chunkSize start ≤ text.length := by
    simp only [tentativeEnd]; omega
  by_cases he : tentativeEnd text chunkSize start < text.length
  · by_cases hb : takesBoundary text chunkSize start = true
    · rw [chunkStep_boundary text chunkSize start he hb]
      have hbp : 0 ≤ breakPointOf (tentativeChunk text chunkSize start) := by
        simp only [takesBoundary, decide_eq_true_eq] at hb
        omega
      have hlt := breakPointOf_lt_length (tentativeChunk text chunkSize start)
      rw [hlen] at hlt
      have hble : (breakPointOf (tentativeChunk text chunkSize start)).toNat + 1 ≤
          tentativeEnd text chunkSize start - start := by omega
      set B := (breakPointOf (tentativeChunk text chunkSize start)).toNat with hB
      refine ⟨by omega, by omega, ?_⟩
      have h3 : start + B + 1 - start = B + 1 := by omega
      rw [h3]
      unfold tentativeChunk
      rw [List.take_take, Nat.min_eq_left hble]
    · rw [chunkStep_hardcut text chunkSize start he (by simpa using hb)]
      exact ⟨hend, hendle, rfl⟩
  · rw [chunkStep_final text chunkSize start he]
    exact ⟨hend, hendle, rfl⟩

lemma chunkStep_drop (text : List Char) (chunkSize start : Nat)
    (h1 : 1 ≤ chunkSize) (h2 : start < text.length) :
    text.drop start =
      (chunkStep text chunkSize start).1 ++ text.drop (chunkStep text chunkSize start).2 := by
  obtain ⟨ha, _, hc⟩ := chunkStep_spec text chunkSize start h1 h2
  rw [hc]
  have : text.drop (chunkStep text chunkSize start).2 =
      (text.drop start).drop ((chunkStep text chunkSize start).2 - start) := by
    rw [List.drop_drop]
    congr 1
    omega
  rw [this, List.take_append_drop]

/-! ### Membership in trimmed chunks -/

lemma mem_dropWhile_of_not (p : Char → Bool) (c : Char) :
    ∀ l : List Char, c ∈ l → p c = false → c ∈ l.dropWhile p := by
  intro l hl hp
  induction l with
  | nil => cases hl
  | cons a as ih =>
    by_cases hpa : p a = true
    · rw [List.dropWhile_cons_of_pos hpa]
      rcases List.mem_cons.mp hl with h | h
      · subst h; rw [hpa] at hp; cases hp
      · exact ih h
    · rw [List.dropWhile_cons_of_neg hpa]
      exact hl

lemma mem_trim (c : Char) (l : List Char) (hc : c ∈ l)
    (hw : isJsWhitespace c = false) : c ∈ trim l := by
  unfold trim
  rw [List.mem_reverse]
  apply mem_dropWhile_of_not _ _ _ _ hw
  rw [List.mem_reverse]
  exact mem_dropWhile_of_not _ _ _ hc hw

/-- The loop terminates (fuel `text.length - start` suffices) and every
non-whitespace character of the remaining text lands in a produced chunk. -/
lemma chunkLoop_spec (text : List Char) (chunkSize : Nat) (h1 : 1 ≤ chunkSize) :
    ∀ fuel start, text.length ≤ start + fuel →
      ∃ out, chunkLoop text chunkSize fuel start = some out ∧
        ∀ c ∈ text.drop start, isJsWhitespace c = false → ∃ ch ∈ out, c ∈ ch := by
  intro fuel
  induction fuel with
  | zero =>
    intro start hs
    refine ⟨[], ?_, ?_⟩
    · simp only [chunkLoop]
      rw [if_neg (by omega)]
    · intro c hc
      rw [List.drop_eq_nil_of_le (by omega)] at hc
      cases hc
  | succ fuel ih =>
    intro start hs
    by_cases hstart : start < text.length
    · obtain ⟨ha, hb, _⟩ := chunkStep_spec text chunkSize start h1 hstart
      obtain ⟨out', hloop, hmem⟩ :=
        ih (chunkStep text chunkSize start).2 (by omega)
      refine ⟨if (trim (chunkStep text chunkSize start).1).isEmpty then out'
          else trim (chunkStep text chunkSize start).1 :: out', ?_, ?_⟩
      · simp only [chunkLoop]
        rw [if_pos hstart, hloop]
      · intro c hc hw
        rw [chunkStep_drop text chunkSize start h1 hstart, List.mem_append] at hc
        rcases hc with hc | hc
        · have htm := mem_trim c _ hc hw
          have hne : ¬ (trim (chunkStep text chunkSize start).1).isEmpty = true := by
            cases h : (trim (chunkStep text chunkSize start).1) with
            | nil => rw [h] at htm; cases htm
            | cons x xs => simp
          rw [if_neg hne]
          exact ⟨trim (chunkStep text chunkSize start).1, List.mem_cons_self _ _, htm⟩
        · obtain ⟨ch, hch, hcch⟩ := hmem c hc hw
          refine ⟨ch, ?_, hcch⟩
          split
          · exact hch
          · exact List.mem_cons_of_mem _ hch
    · refine ⟨[], ?_, ?_⟩
      · simp only [chunkLoop]
        rw [if_neg hstart]
      · intro c hc
        rw [List.drop_eq_nil_of_le (by omega)] at hc
        cases hc

/-! ### Concrete chunker inputs used by counterexamples -/

/-- Thirty letters with no sentence boundary: every iteration is a hard
cut. -/
def hardCutText : List Char := List.replicate 30 'a'

/-- Ten letters, then a second window whose period sits at chunk-relative
index 8 (beyond 70% of a size-10 chunk). -/
def latePeriodText : List Char :=
  List.replicate 10 'a' ++ List.replicate 8 'b' ++ ['.', 'b'] ++ List.replicate 5 'c'

/-! ### Claim C1 -/

/-- C1, counterexample: at the hard-cut branch (no break point in the
window `[0,10)` of a 30-character text) the code sets the next start to
the previous end `10`, not to `end - overlap = 8` as the claim states
(overlap `2` here). -/
theorem claim1_cex :
    tentativeEnd hardCutText 10 0 < hardCutText.length ∧
    takesBoundary hardCutText 10 0 = false ∧
    (chunkStep hardCutText 10 0).2 = 10 ∧
    (chunkStep hardCutText 10 0).2 ≠ tentativeEnd hardCutText 10 0 - 2 := by
  decide

/-- C1, amended: in the hard-cut branch the next chunk's start offset
equals the previous chunk's end exactly — no overlap is subtracted; the
`overlap` parameter is never read, so `chunkText` is independent of it and
consecutive chunks share no characters. -/
theorem claim1_hardcut_advance (text : List Char) (chunkSize start o₁ o₂ : Nat)
    (h : tentativeEnd text chunkSize start < text.length)
    (hb : takesBoundary text chunkSize start = false) :
    (chunkStep text chunkSize start).2 = tentativeEnd text chunkSize start ∧
    chunkText text chunkSize o₁ = chunkText text chunkSize o₂ :=
  ⟨by rw [chunkStep_hardcut text chunkSize start h hb], rfl⟩

/-- Witness for C1 at the concrete hard-cut input. -/
theorem claim1_hardcut_advance_witness :
    (chunkStep hardCutText 10 0).2 = tentativeEnd hardCutText 10 0 ∧
    chunkText hardCutText 10 0 = chunkText hardCutText 10 200 :=
  claim1_hardcut_advance hardCutText 10 0 0 200 (by decide) (by decide)

/-! ### Claim C3 -/

/-- C3, code bug: in the second window of `latePeriodText` (start `10`,
chunk size `10`) the period sits at chunk-relative index `8`, beyond 70%
of the chunk (`8 > 7 = 0.7 × 10`), so the claim (and the spec, and the
code's own comment) require truncation at the period.  The code instead
compares the chunk-relative index against `start + 0.7 × chunkSize = 17`,
takes the hard cut, and emits the full slice `"bbbbbbbb.b"` that runs
through the period. -/
theorem claim3_bug_eval :
    breakPointOf (tentativeChunk latePeriodText 10 10) = 8 ∧
    (10 * (8 : Int) > 7 * 10) ∧
    takesBoundary latePeriodText 10 10 = false ∧
    chunkText latePeriodText 10 200 =
      [List.replicate 10 'a', List.replicate 8 'b' ++ ['.', 'b'],
        List.replicate 5 'c'] := by
  decide

/-! ### Claim C9 -/

/-- C9, counterexample: with `chunkSize = 0` the start offset does not
increase (the step returns the same start), and the loop never terminates
— `chunkText` does not terminate for every configuration. -/
theorem claim9_cex :
    (chunkStep ['a'] 0 0).2 = 0 ∧ chunkLoop ['a'] 0 5 0 = none := by
  decide

/-- C9, amended: whenever `chunkSize ≥ 1` the start offset strictly
increases on every loop iteration; on every non-final iteration it
advances by at least `chunkSize × 0.3` (in exact arithmetic,
`10 × advance ≥ 3 × chunkSize`); hence `text.length` iterations always
suffice and `chunkText` terminates. -/
theorem claim9_termination (text : List Char) (chunkSize : Nat) (h : 1 ≤ chunkSize) :
    (∀ start, start < text.length → start < (chunkStep text chunkSize start).2) ∧
    (∀ start, tentativeEnd text chunkSize start < text.length →
      3 * chunkSize ≤ 10 * ((chunkStep text chunkSize start).2 - start)) ∧
    (chunkLoop text chunkSize text.length 0).isSome := by
  refine ⟨?_, ?_, ?_⟩
  · intro start hs
    exact (chunkStep_spec text chunkSize start h hs).1
  · intro start he
    have hs : start < text.length := by
      simp only [tentativeEnd] at he
      omega
    have hee : tentativeEnd text chunkSize start = start + chunkSize := by
      simp only [tentativeEnd] at he ⊢
      omega
    by_cases hb : takesBoundary text chunkSize start = true
    · rw [chunkStep_boundary text chunkSize start he hb]
      simp only [takesBoundary, decide_eq_true_eq] at hb
      have h0 : 0 ≤ breakPointOf (tentativeChunk text chunkSize start) := by omega
      omega
    · rw [chunkStep_hardcut text chunkSize start he (by simpa using hb), hee]
      omega
  · obtain ⟨out, hout, -⟩ :=
      chunkLoop_spec text chunkSize h text.length 0 (by omega)
    rw [hout]
    rfl

/-- Witness for C9 at a concrete text and the default chunk size. -/
theorem claim9_termination_witness :
    0 < (chunkStep ("ab".toList) 1000 0).2 ∧
    (chunkLoop ("ab".toList) 1000 ("ab".toList).length 0).isSome :=
  ⟨(claim9_termination ("ab".toList) 1000 (by decide)).1 0 (by decide),
    (claim9_termination ("ab".toList) 1000 (by decide)).2.2⟩

/-! ### Claim C2 -/

/-- C2, counterexample: the single character of the text `" "` appears in
no chunk — trimming discards it and the whitespace-only chunk is dropped,
so not every character of the original text appears in a chunk. -/
theorem claim2_cex :
    ¬ (∀ c ∈ ([' '] : List Char), ∃ ch ∈ chunkText [' '] 1000 200, c ∈ ch) := by
  decide

/-- C2, amended: the untrimmed slices taken by the loop tile the text
exactly, but each pushed chunk is trimmed and whitespace-only chunks are
dropped, so what survives is: every non-whitespace character of the
original text appears in at least one chunk (whenever `chunkSize ≥ 1`). -/
theorem claim2_coverage (text : List Char) (chunkSize overlap : Nat)
    (h : 1 ≤ chunkSize) :
    ∀ c ∈ text, isJsWhitespace c = false →
      ∃ ch ∈ chunkText text chunkSize overlap, c ∈ ch := by
  intro c hc hw
  obtain ⟨out, hout, hmem⟩ := chunkLoop_spec text chunkSize h text.length 0 (by omega)
  rw [chunkText, hout, Option.getD_some]
  exact hmem c (by simpa using hc) hw

/-- Witness for C2: the letter of `"a b"` lands in a chunk. -/
theorem claim2_coverage_witness :
    ∃ ch ∈ chunkText ("a b".toList) 1000 200, 'b' ∈ ch :=
  claim2_coverage ("a b".toList) 1000 200 (by decide) 'b' (by decide) (by decide)

/-! ## Retrieval and context assembly
(`src/utils/langchain-processing.ts`, `DocumentProcessor`)

`searchWithScore` is an external vector-store query; retrieval is modelled
as a function of its outcome: either an error (embedding/store failure,
the `catch` path) or a list of `(document, score)` pairs.  Scores are
exact rationals.  The relevance threshold is the literal `0.4` in the
deployed source (`0.7` in the second deployment of the same file); the
spec requires it to be configuration, so it is a parameter here and the
deployed value `2/5` is used at concrete instances. -/

/-- Decimal digits of a natural number, most significant first (fueled so
that it reduces in the kernel). -/
def digitCharsGo : Nat → Nat → List Char
  | 0, _ => []
  | fuel + 1, n =>
    if n < 10 then [Char.ofNat (48 + n)]
    else digitCharsGo fuel (n / 10) ++ [Char.ofNat (48 + n % 10)]

def digitChars (n : Nat) : List Char := digitCharsGo (n + 1) n

/-- `score.toFixed(3)`: fixed-point rendering with three decimals,
rounding half away from zero (the model of `Number.prototype.toFixed` on
the non-exponential range). -/
def toFixed3 (q : ℚ) : List Char :=
  let n : Int := if q < 0 then -⌊-q * 1000 + 1 / 2⌋ else ⌊q * 1000 + 1 / 2⌋
  let m : Nat := n.natAbs
  (if n < 0 then ['-'] else []) ++ digitChars (m / 1000) ++
    ['.', Char.ofNat (48 + m / 100 % 10), Char.ofNat (48 + m / 10 % 10),
      Char.ofNat (48 + m % 10)]

/-- A document as returned by `similaritySearchWithScore`: its page
content and the metadata fields the retrieval path reads. -/
structure SearchDoc where
  pageContent : List Char
  filename : String
  chunkIndex : Nat
deriving DecidableEq

/-- The outcome of `searchWithScore`: a thrown error or scored results. -/
abbrev SearchOutcome := Except String (List (SearchDoc × ℚ))

/-- `results.filter(([, score]) => score > threshold)`. -/
def relevantResults (threshold : ℚ) (results : List (SearchDoc × ℚ)) :
    List (SearchDoc × ℚ) :=
  results.filter fun p => decide (threshold < p.2)

/-- One context entry: `[Score: ${score.toFixed(3)}] ${doc.pageContent}`. -/
def contextEntry (p : SearchDoc × ℚ) : List Char :=
  "[Score: ".toList ++ toFixed3 p.2 ++ "] ".toList ++ p.1.pageContent

/-- The join separator `'\n\n---\n\n'`. -/
def contextSeparator : List Char := "\n\n---\n\n".toList

/-- `getRelevantContext` (lines 235-259): filter, join — and the `catch`
block maps any retrieval-path error to the empty string. -/
def getRelevantContext (threshold : ℚ) (outcome : SearchOutcome) : List Char :=
  match outcome with
  | .error _ => []
  | .ok results =>
    let relevant := relevantResults threshold results
    if relevant.isEmpty then []
    else List.intercalate contextSeparator (relevant.map contextEntry)

/-- One source-attribution entry (lines 287-292):
`content.substring(0, 150)` plus an ellipsis when truncated. -/
structure SourceRef where
  filename : String
  chunkIndex : Nat
  score : ℚ
  content : List Char
deriving DecidableEq

def mkSourceRef (p : SearchDoc × ℚ) : SourceRef :=
  { filename := p.1.filename
    chunkIndex := p.1.chunkIndex
    score := p.2
    content := p.1.pageContent.take 150 ++
      (if 150 < p.1.pageContent.length then "...".toList else []) }

structure RetrievalResult where
  context : List Char
  sources : List SourceRef
deriving DecidableEq

/-- `getRelevantContextWithSources` (lines 261-300): same filter and
context as `getRelevantContext`, plus the sources list; the `catch` block
maps any retrieval-path error to `{ context: '', sources: [] }`. -/
def getRelevantContextWithSources (threshold : ℚ) (outcome : SearchOutcome) :
    RetrievalResult :=
  match outcome with
  | .error _ => { context := [], sources := [] }
  | .ok results =>
    let relevant := relevantResults threshold results
    if relevant.isEmpty then { context := [], sources := [] }
    else
      { context := List.intercalate contextSeparator (relevant.map contextEntry)
        sources := relevant.map mkSourceRef }

/-- The chat route (`src/unnamed/part_002`): `hasContext: context.length > 0`. -/
def hasContext (context : List Char) : Bool := decide (0 < context.length)

lemma sources_eq (t : ℚ) (rs : List (SearchDoc × ℚ)) :
    (getRelevantContextWithSources t (.ok rs)).sources =
      (relevantResults t rs).map mkSourceRef := by
  simp only [getRelevantContextWithSources]
  split
  case isTrue h =>
    rw [List.isEmpty_iff.mp h]
    rfl
  case isFalse h => rfl

/-! ### Concrete retrieval inputs used by counterexamples and witnesses -/

def scenDocA : SearchDoc := ⟨"Refunds are granted within 30 days.".toList, "policy.md", 0⟩
def scenDocB : SearchDoc := ⟨"Unrelated shipping details.".toList, "shipping.md", 2⟩
def scenDocC : SearchDoc := ⟨"Borderline paragraph.".toList, "policy.md", 1⟩

/-- Scenario C of the spec plus an exactly-at-threshold result. -/
def scenResults : List (SearchDoc × ℚ) :=
  [(scenDocA, 11 / 20), (scenDocB, 1 / 5), (scenDocC, 2 / 5)]

/-! ### Claim C4 -/

/-- C4, counterexample: a retrieval-path failure is NOT distinguishable
from the legitimate empty result: the `catch` blocks collapse the error
into the very same `{ context: '', sources: [] }` (resp. `''`) that an
all-below-threshold query returns, so `hasContext` is `false` in both
cases and the caller cannot tell them apart. -/
theorem claim4_cex :
    getRelevantContextWithSources (2 / 5) (.error "store query failed") =
      getRelevantContextWithSources (2 / 5) (.ok [(scenDocB, 1 / 5)]) ∧
    getRelevantContext (2 / 5) (.error "store query failed") =
      getRelevantContext (2 / 5) (.ok [(scenDocB, 1 / 5)]) ∧
    hasContext (getRelevantContext (2 / 5) (.error "store query failed")) = false := by
  have hfil : relevantResults (2 / 5) [(scenDocB, 1 / 5)] = [] := by
    simp only [relevantResults, List.filter_cons, List.filter_nil]
    norm_num
  refine ⟨?_, ?_, rfl⟩
  · simp only [getRelevantContextWithSources]
    rw [hfil]
    rfl
  · simp only [getRelevantContext]
    rw [hfil]
    rfl

/-- C4, amended: a retrieval-path failure does fail closed — no chunk
content reaches the caller — but it is reported as the empty context with
empty sources and `hasContext = false`, which is exactly the value of the
legitimate all-below-threshold outcome, not a distinguishable error. -/
theorem claim4_fail_closed (t : ℚ) (e : String) (rs : List (SearchDoc × ℚ))
    (hall : ∀ p ∈ rs, p.2 ≤ t) :
    getRelevantContextWithSources t (.error e) = ⟨[], []⟩ ∧
    getRelevantContext t (.error e) = [] ∧
    hasContext (getRelevantContext t (.error e)) = false ∧
    getRelevantContextWithSources t (.ok rs) = ⟨[], []⟩ ∧
    getRelevantContext t (.ok rs) = [] ∧
    hasContext (getRelevantContext t (.ok rs)) = false := by
  have hfil : relevantResults t rs = [] := by
    simp only [relevantResults]
    rw [List.filter_eq_nil_iff]
    intro p hp
    simpa using not_lt.mpr (hall p hp)
  refine ⟨rfl, rfl, rfl, ?_, ?_, ?_⟩ <;>
    simp [getRelevantContextWithSources, getRelevantContext, hfil, hasContext]

/-- Witness for C4 at the concrete below-threshold result. -/
theorem claim4_fail_closed_witness :
    getRelevantContextWithSources (2 / 5) (.error "boom") = ⟨[], []⟩ ∧
    getRelevantContext (2 / 5) (.error "boom") = [] ∧
    hasContext (getRelevantContext (2 / 5) (.error "boom")) = false ∧
    getRelevantContextWithSources (2 / 5) (.ok [(scenDocB, 1 / 5)]) = ⟨[], []⟩ ∧
    getRelevantContext (2 / 5) (.ok [(scenDocB, 1 / 5)]) = [] ∧
    hasContext (getRelevantContext (2 / 5) (.ok [(scenDocB, 1 / 5)])) = false :=
  claim4_fail_closed (2 / 5) "boom" [(scenDocB, 1 / 5)] (by norm_num)

/-! ### Claim C5 -/

/-- C5: a result is kept exactly when its score is strictly greater than
the threshold: every returned source scores above the threshold, every
strictly-above-threshold result is returned, and a result whose score
equals the threshold is excluded from the sources list. -/
theorem claim5_strict_threshold (t : ℚ) (rs : List (SearchDoc × ℚ)) :
    (∀ s ∈ (getRelevantContextWithSources t (.ok rs)).sources, t < s.score) ∧
    (∀ p ∈ rs, t < p.2 →
      mkSourceRef p ∈ (getRelevantContextWithSources t (.ok rs)).sources) ∧
    (∀ p ∈ rs, p.2 = t →
      mkSourceRef p ∉ (getRelevantContextWithSources t (.ok rs)).sources) := by
  have h1 : ∀ s ∈ (getRelevantContextWithSources t (.ok rs)).sources, t < s.score := by
    intro s hs
    rw [sources_eq] at hs
    obtain ⟨p, hp, rfl⟩ := List.mem_map.mp hs
    exact of_decide_eq_true (List.mem_filter.mp hp).2
  refine ⟨h1, ?_, ?_⟩
  · intro p hp hlt
    rw [sources_eq]
    exact List.mem_map_of_mem _ (List.mem_filter.mpr ⟨hp, decide_eq_true hlt⟩)
  · intro p hp heq hmem
    have hlt : t < p.2 := h1 _ hmem
    rw [heq] at hlt
    exact lt_irrefl t hlt

/-- Witness for C5: at threshold `0.4`, the `0.55` result is returned,
the `0.4` (exactly-at-threshold) result is excluded. -/
theorem claim5_strict_threshold_witness :
    mkSourceRef (scenDocA, 11 / 20) ∈
      (getRelevantContextWithSources (2 / 5) (.ok scenResults)).sources ∧
    mkSourceRef (scenDocC, 2 / 5) ∉
      (getRelevantContextWithSources (2 / 5) (.ok scenResults)).sources :=
  ⟨(claim5_strict_threshold (2 / 5) scenResults).2.1 (scenDocA, 11 / 20)
      (by simp [scenResults]) (by norm_num),
    (claim5_strict_threshold (2 / 5) scenResults).2.2 (scenDocC, 2 / 5)
      (by simp [scenResults]) rfl⟩

/-! ### Claim C8 -/

lemma filter_length_mono {α : Type} (p q : α → Bool)
    (h : ∀ a, p a = true → q a = true) :
    ∀ l : List α, (l.filter p).length ≤ (l.filter q).length := by
  intro l
  induction l with
  | nil => simp
  | cons a as ih =>
    simp only [List.filter_cons]
    by_cases hpa : p a = true
    · rw [if_pos hpa, if_pos (h a hpa)]
      simpa using ih
    · rw [if_neg hpa]
      split
      · exact le_trans ih (by simp)
      · exact ih

/-- C8: raising the relevance threshold never increases the number of
returned sources; the sources passing the higher threshold are a subset
of those passing the lower one. -/
theorem claim8_threshold_mono (t₁ t₂ : ℚ) (h : t₁ ≤ t₂)
    (rs : List (SearchDoc × ℚ)) :
    ((getRelevantContextWithSources t₂ (.ok rs)).sources).length ≤
      ((getRelevantContextWithSources t₁ (.ok rs)).sources).length ∧
    ∀ s ∈ (getRelevantContextWithSources t₂ (.ok rs)).sources,
      s ∈ (getRelevantContextWithSources t₁ (.ok rs)).sources := by
  have hmono : ∀ p : SearchDoc × ℚ, decide (t₂ < p.2) = true →
      decide (t₁ < p.2) = true := by
    intro p hp
    exact decide_eq_true (lt_of_le_of_lt h (of_decide_eq_true hp))
  constructor
  · rw [sources_eq, sources_eq, List.length_map, List.length_map]
    exact filter_length_mono _ _ hmono rs
  · intro s hs
    rw [sources_eq] at hs ⊢
    obtain ⟨p, hp, rfl⟩ := List.mem_map.mp hs
    obtain ⟨hmem, hdec⟩ := List.mem_filter.mp hp
    exact List.mem_map_of_mem _ (List.mem_filter.mpr ⟨hmem, hmono p hdec⟩)

/-- Witness for C8 at the two deployed thresholds `0.4` and `0.7`. -/
theorem claim8_threshold_mono_witness :
    ((getRelevantContextWithSources (7 / 10) (.ok scenResults)).sources).length ≤
      ((getRelevantContextWithSources (2 / 5) (.ok scenResults)).sources).length :=
  (claim8_threshold_mono (2 / 5) (7 / 10) (by norm_num) scenResults).1

/-! ### Claim C10 -/

/-- C10: the two retrieval entry points are context-equivalent — on every
search outcome `getRelevantContextWithSources` assembles exactly the
context string that `getRelevantContext` returns (same filter, same
score-prefixed entries, same separator, same collapse of errors and of
empty filters to the empty string). -/
theorem claim10_context_equiv (t : ℚ) (outcome : SearchOutcome) :
    (getRelevantContextWithSources t outcome).context =
      getRelevantContext t outcome := by
  cases outcome with
  | error e => rfl
  | ok rs =>
    simp only [getRelevantContextWithSources, getRelevantContext]
    split <;> rfl

/-! ## Chunk metadata (`src/utils/document-processing.ts`, `processDocument`,
and the identical metadata assignment in
`src/utils/langchain-processing.ts`) -/

/-- The `metadata` field of a `DocumentChunk` (`src/utils/pinecone.ts`). -/
structure ChunkMetadata where
  source : String
  filename : String
  chunkIndex : Nat
  totalChunks : Nat
deriving DecidableEq

structure DocumentChunk where
  id : String
  text : List Char
  metadata : ChunkMetadata
deriving DecidableEq

/-- `textChunks.map((chunk, index) => ({...}))` (lines 102-111), as a
recursion carrying the running index. -/
def mkChunksFrom (filename source : String) (total : Nat) :
    Nat → List (List Char) → List DocumentChunk
  | _, [] => []
  | i, chunk :: rest =>
    { id := filename ++ "-chunk-" ++ toString i
      text := chunk
      metadata :=
        { source := source, filename := filename, chunkIndex := i, totalChunks := total } }
      :: mkChunksFrom filename source total (i + 1) rest

/-- The chunk records built by `processDocument` from the extracted text
(embedding generation and storage are external calls carrying these
records through unchanged). -/
def processDocumentChunks (filename source : String) (text : List Char) :
    List DocumentChunk :=
  mkChunksFrom filename source (chunkText text 1000 200).length 0
    (chunkText text 1000 200)

lemma mkChunksFrom_length (filename source : String) (total : Nat) :
    ∀ i l, (mkChunksFrom filename source total i l).length = l.length := by
  intro i l
  induction l generalizing i with
  | nil => rfl
  | cons c rest ih => simp [mkChunksFrom, ih]

lemma mkChunksFrom_map_chunkIndex (filename source : String) (total : Nat) :
    ∀ i l, (mkChunksFrom filename source total i l).map
      (fun c => c.metadata.chunkIndex) = List.range' i l.length := by
  intro i l
  induction l generalizing i with
  | nil => rfl
  | cons c rest ih =>
    simp only [mkChunksFrom, List.map_cons, List.length_cons, List.range'_succ]
    rw [ih]

lemma mkChunksFrom_mem (filename source : String) (total : Nat) :
    ∀ i l ch, ch ∈ mkChunksFrom filename source total i l →
      ch.metadata.totalChunks = total ∧
      ch.metadata.source = source ∧
      ch.metadata.filename = filename ∧
      ch.id = filename ++ "-chunk-" ++ toString ch.metadata.chunkIndex := by
  intro i l
  induction l generalizing i with
  | nil => intro ch h; cases h
  | cons c rest ih =>
    intro ch h
    rcases List.mem_cons.mp h with h | h
    · subst h
      exact ⟨rfl, rfl, rfl, rfl⟩
    · exact ih (i + 1) ch h

/-! ### Claim C6 -/

/-- C6: for a document whose text splits into `N` chunks, the produced
chunk records carry `chunkIndex` values exactly `0, ..., N-1` in insertion
order, `totalChunks = N` on every chunk, and the deterministic id
`{filename}-chunk-{chunkIndex}`. -/
theorem claim6_chunk_metadata (filename source : String) (text : List Char) :
    (processDocumentChunks filename source text).length =
      (chunkText text 1000 200).length ∧
    (processDocumentChunks filename source text).map
      (fun c => c.metadata.chunkIndex) =
      List.range (chunkText text 1000 200).length ∧
    ∀ ch ∈ processDocumentChunks filename source text,
      ch.metadata.totalChunks = (chunkText text 1000 200).length ∧
      ch.id = filename ++ "-chunk-" ++ toString ch.metadata.chunkIndex := by
  refine ⟨mkChunksFrom_length _ _ _ _ _, ?_, ?_⟩
  · rw [processDocumentChunks, mkChunksFrom_map_chunkIndex, List.range_eq_range']
  · intro ch hch
    obtain ⟨h1, -, -, h4⟩ := mkChunksFrom_mem filename source _ _ _ ch hch
    exact ⟨h1, h4⟩

/-- The single chunk record of the one-chunk document used as the C6
witness. -/
def demoChunk : DocumentChunk :=
  ⟨"report.md-chunk-0", "hello world".toList, ⟨"markdown", "report.md", 0, 1⟩⟩

/-- Witness for C6 on a one-chunk markdown document. -/
theorem claim6_chunk_metadata_witness :
    (processDocumentChunks "report.md" "markdown" ("hello world".toList)).length =
      (chunkText ("hello world".toList) 1000 200).length ∧
    (processDocumentChunks "report.md" "markdown" ("hello world".toList)).map
      (fun c => c.metadata.chunkIndex) =
      List.range (chunkText ("hello world".toList) 1000 200).length ∧
    demoChunk.metadata.totalChunks = (chunkText ("hello world".toList) 1000 200).length ∧
    demoChunk.id = "report.md" ++ "-chunk-" ++ toString demoChunk.metadata.chunkIndex :=
  ⟨(claim6_chunk_metadata "report.md" "markdown" ("hello world".toList)).1,
    (claim6_chunk_metadata "report.md" "markdown" ("hello world".toList)).2.1,
    (claim6_chunk_metadata "report.md" "markdown" ("hello world".toList)).2.2
      demoChunk (by decide)⟩

/-! ## Markdown extraction
(`extractTextFromMarkdown` in `src/utils/document-processing.ts` and
`src/utils/langchain-processing.ts`)

The source renders markdown to HTML with the external `marked` library and
then deletes every `<...>` span with the regex `/<[^>]*>/g`.  The regex
replacement is embedded below exactly (`stripTags`); the rendering step is
modelled from the spec: `marked` is not part of this repository, and §4.1
specifies only "render to an intermediate markup form, strip all markup
tags", so markdown input is modelled as an abstract document tree and
rendered to the standard HTML that `marked` emits for these constructs
(`<h1>…</h1>`, `<p>…</p>`, `<em>`, `<strong>`, `<a href="url">text</a>`,
`<img src="url" alt="alt">`). -/

/-- `str.replace(/<[^>]*>/g, '')`, helper: after a `<`, drop through the
first `>`; `none` when no `>` follows (then the regex has no match
starting at that `<`). -/
def dropTag : List Char → Option (List Char)
  | [] => none
  | c :: cs => if c = '>' then some cs else dropTag cs

/-- `str.replace(/<[^>]*>/g, '')`, fueled so that it reduces in the
kernel.  When a `<` has no subsequent `>`, no match starts at it — and
none can start later either, so the remainder is kept verbatim. -/
def stripTagsF : Nat → List Char → List Char
  | 0, l => l
  | _ + 1, [] => []
  | fuel + 1, c :: cs =>
    if c = '<' then
      match dropTag cs with
      | some rest => stripTagsF fuel rest
      | none => c :: cs
    else c :: stripTagsF fuel cs

def stripTags (l : List Char) : List Char := stripTagsF l.length l

lemma dropTag_length : ∀ l r, dropTag l = some r → r.length < l.length := by
  intro l
  induction l with
  | nil => intro r h; cases h
  | cons c cs ih =>
    intro r h
    simp only [dropTag] at h
    split at h
    · cases h
      simp
    · have := ih r h
      simp only [List.length_cons]
      omega

lemma stripTagsF_cons_some (fuel : Nat) (cs rest : List Char)
    (hd : dropTag cs = some rest) :
    stripTagsF (fuel + 1) ('<' :: cs) = stripTagsF fuel rest := by
  simp only [stripTagsF, if_pos rfl, hd, if_true]

lemma stripTagsF_cons_ne (fuel : Nat) (c : Char) (cs : List Char) (hc : ¬ c = '<') :
    stripTagsF (fuel + 1) (c :: cs) = c :: stripTagsF fuel cs := by
  simp only [stripTagsF, if_neg hc]

/-- The fuel is irrelevant as long as it is at least the length. -/
lemma stripTagsF_fuel : ∀ n fuel l, l.length ≤ n → l.length ≤ fuel →
    stripTagsF fuel l = stripTags l := by
  intro n
  induction n with
  | zero =>
    intro fuel l h1 h2
    have : l = [] := List.eq_nil_of_length_eq_zero (by omega)
    subst this
    cases fuel <;> rfl
  | succ n ih =>
    intro fuel l h1 h2
    cases l with
    | nil => cases fuel <;> rfl
    | cons c cs =>
      simp only [List.length_cons] at h1 h2
      cases fuel with
      | zero => omega
      | succ f =>
        by_cases hc : c = '<'
        · subst hc
          cases hd : dropTag cs with
          | none =>
            show stripTagsF (f + 1) ('<' :: cs) = stripTagsF (cs.length + 1) ('<' :: cs)
            simp only [stripTagsF, if_pos rfl, hd, if_true]
          | some rest =>
            have hr := dropTag_length cs rest hd
            rw [stripTagsF_cons_some f cs rest hd]
            rw [show stripTags ('<' :: cs) = stripTagsF (cs.length + 1) ('<' :: cs) from rfl]
            rw [stripTagsF_cons_some cs.length cs rest hd]
            rw [ih f rest (by omega) (by omega), ih cs.length rest (by omega) (by omega)]
        · rw [stripTagsF_cons_ne f c cs hc]
          rw [show stripTags (c :: cs) = stripTagsF (cs.length + 1) (c :: cs) from rfl]
          rw [stripTagsF_cons_ne cs.length c cs hc]
          rw [ih f cs (by omega) (by omega), ih cs.length cs (by omega) le_rfl]

lemma dropTag_append (mid rest : List Char) (h : ∀ c ∈ mid, c ≠ '>') :
    dropTag (mid ++ '>' :: rest) = some rest := by
  induction mid with
  | nil => simp [dropTag]
  | cons c cs ih =>
    have hc : c ≠ '>' := h c (List.mem_cons_self _ _)
    simp only [List.cons_append, dropTag, if_neg hc]
    exact ih fun x hx => h x (List.mem_cons_of_mem _ hx)

/-- One full `<...>` span is deleted. -/
lemma stripTags_tag (mid rest : List Char) (h : ∀ c ∈ mid, c ≠ '>') :
    stripTags ('<' :: (mid ++ '>' :: rest)) = stripTags rest := by
  rw [show stripTags ('<' :: (mid ++ '>' :: rest)) =
      stripTagsF ((mid ++ '>' :: rest).length + 1) ('<' :: (mid ++ '>' :: rest)) from rfl]
  rw [stripTagsF_cons_some _ _ _ (dropTag_append mid rest h)]
  exact stripTagsF_fuel (mid ++ '>' :: rest).length _ rest
    (by simp; omega) (by simp; omega)

/-- Text without `<` passes through unchanged. -/
lemma stripTags_no_lt (s : List Char) (rest : List Char)
    (h : ∀ c ∈ s, c ≠ '<') : stripTags (s ++ rest) = s ++ stripTags rest := by
  induction s with
  | nil => rfl
  | cons c cs ih =>
    have hc : c ≠ '<' := h c (List.mem_cons_self _ _)
    rw [show stripTags ((c :: cs) ++ rest) =
        stripTagsF ((cs ++ rest).length + 1) (c :: (cs ++ rest)) from rfl]
    rw [stripTagsF_cons_ne _ c _ hc]
    rw [stripTagsF_fuel (cs ++ rest).length _ (cs ++ rest) le_rfl le_rfl]
    rw [ih fun x hx => h x (List.mem_cons_of_mem _ hx)]
    rfl

/-! ### Markdown documents and their rendered HTML -/

/-- The markdown constructs named by the claim: plain text, emphasis,
strong emphasis, links, images (leaf texts are plain). -/
inductive MdInline where
  | text (s : List Char)
  | em (s : List Char)
  | strong (s : List Char)
  | link (txt url : List Char)
  | image (alt url : List Char)
deriving DecidableEq

inductive MdBlock where
  | heading (level : Nat) (content : List MdInline)
  | paragraph (content : List MdInline)
deriving DecidableEq

/-- A fragment of rendered HTML: one `<...>` tag (its inside) or a run of
document text. -/
inductive Tok where
  | tag (mid : List Char)
  | txt (s : List Char)
deriving DecidableEq

def tokHtml : Tok → List Char
  | .tag mid => '<' :: (mid ++ ['>'])
  | .txt s => s

def toksHtml (ts : List Tok) : List Char := (ts.map tokHtml).flatten

/-- Modelled from the spec: the HTML that `marked` (external library)
emits for each inline construct, as its tag/text fragments. -/
def inlineToks : MdInline → List Tok
  | .text s => [.txt s]
  | .em s => [.tag ("em".toList), .txt s, .tag ("/em".toList)]
  | .strong s => [.tag ("strong".toList), .txt s, .tag ("/strong".toList)]
  | .link t u =>
    [.tag ("a href=\"".toList ++ u ++ "\"".toList), .txt t, .tag ("/a".toList)]
  | .image a u =>
    [.tag ("img src=\"".toList ++ u ++ "\" alt=\"".toList ++ a ++ "\"".toList)]

/-- Modelled from the spec: the HTML that `marked` emits for each block
(`<hN>…</hN>` and `<p>…</p>`, each followed by a newline). -/
def blockToks : MdBlock → List Tok
  | .heading level c =>
    .tag ('h' :: digitChars level) :: (c.map inlineToks).flatten ++
      [.tag ('/' :: 'h' :: digitChars level), .txt ['\n']]
  | .paragraph c =>
    .tag ("p".toList) :: (c.map inlineToks).flatten ++
      [.tag ("/p".toList), .txt ['\n']]

def mdToHtml (d : List MdBlock) : List Char := toksHtml ((d.map blockToks).flatten)

/-- `extractTextFromMarkdown`: render to HTML, then delete every `<...>`
span. -/
def extractTextFromMarkdown (d : List MdBlock) : List Char :=
  stripTags (mdToHtml d)

/-- From the spec's words, the expected plain text: markers removed, link
text retained, image alt text retained is the CLAIM under test — here the
comparison target keeps link text and drops the whole image (what the
code actually does; the claim's version would put `a` for `image a u`). -/
def inlinePlain : MdInline → List Char
  | .text s => s
  | .em s => s
  | .strong s => s
  | .link t _ => t
  | .image _ _ => []

def blockPlain : MdBlock → List Char
  | .heading _ c => (c.map inlinePlain).flatten ++ ['\n']
  | .paragraph c => (c.map inlinePlain).flatten ++ ['\n']

def mdPlain (d : List MdBlock) : List Char := (d.map blockPlain).flatten

/-- A fragment is well formed for stripping when tag insides contain no
`>` and text runs contain no `<`. -/
def tokOkB : Tok → Bool
  | .tag mid => mid.all fun c => c != '>'
  | .txt s => s.all fun c => c != '<'

def inlineTagFree (i : MdInline) : Bool := (inlineToks i).all tokOkB

def mdTagFree (d : List MdBlock) : Bool := d.all fun b => (blockToks b).all tokOkB

def tokPlain : Tok → List Char
  | .tag _ => []
  | .txt s => s

def toksPlain (ts : List Tok) : List Char := (ts.map tokPlain).flatten

/-- Stripping the rendered fragments keeps exactly the text runs. -/
lemma stripTags_toksHtml : ∀ ts : List Tok, ∀ rest : List Char,
    (∀ t ∈ ts, tokOkB t = true) →
    stripTags (toksHtml ts ++ rest) = toksPlain ts ++ stripTags rest := by
  intro ts
  induction ts with
  | nil => intro rest h; rfl
  | cons t ts ih =>
    intro rest h
    have ht := h t (List.mem_cons_self _ _)
    have hts := fun x hx => h x (List.mem_cons_of_mem _ hx)
    cases t with
    | txt s =>
      have hs : ∀ c ∈ s, c ≠ '<' := by
        simpa [tokOkB, List.all_eq_true] using ht
      show stripTags ((s ++ toksHtml ts) ++ rest) = (s ++ toksPlain ts) ++ stripTags rest
      rw [List.append_assoc, List.append_assoc, stripTags_no_lt s _ hs, ih rest hts]
    | tag mid =>
      have hm : ∀ c ∈ mid, c ≠ '>' := by
        simpa [tokOkB, List.all_eq_true] using ht
      show stripTags ('<' :: ((mid ++ ['>']) ++ toksHtml ts ++ rest)) =
        toksPlain ts ++ stripTags rest
      rw [List.append_assoc, List.append_assoc,
        show (['>'] : List Char) ++ (toksHtml ts ++ rest) =
          '>' :: (toksHtml ts ++ rest) from rfl,
        stripTags_tag mid _ hm, ih rest hts]

lemma toksPlain_append (a b : List Tok) :
    toksPlain (a ++ b) = toksPlain a ++ toksPlain b := by
  simp [toksPlain]

lemma inline_toksPlain (i : MdInline) :
    toksPlain (inlineToks i) = inlinePlain i := by
  cases i <;> simp [toksPlain, inlineToks, inlinePlain, tokPlain]

lemma inlines_toksPlain (c : List MdInline) :
    toksPlain ((c.map inlineToks).flatten) = (c.map inlinePlain).flatten := by
  induction c with
  | nil => rfl
  | cons i rest ih =>
    simp only [List.map_cons, List.flatten_cons, toksPlain_append, ih,
      inline_toksPlain]

lemma block_toksPlain (b : MdBlock) : toksPlain (blockToks b) = blockPlain b := by
  cases b with
  | heading level c =>
    show toksPlain (Tok.tag ('h' :: digitChars level) ::
      ((c.map inlineToks).flatten ++ _)) = _
    rw [show ∀ t ts, toksPlain (Tok.tag t :: ts) = toksPlain ts from fun t ts => rfl]
    rw [toksPlain_append, inlines_toksPlain]
    rfl
  | paragraph c =>
    show toksPlain (Tok.tag ("p".toList) ::
      ((c.map inlineToks).flatten ++ _)) = _
    rw [show ∀ t ts, toksPlain (Tok.tag t :: ts) = toksPlain ts from fun t ts => rfl]
    rw [toksPlain_append, inlines_toksPlain]
    rfl

lemma md_toksPlain (d : List MdBlock) :
    toksPlain ((d.map blockToks).flatten) = mdPlain d := by
  induction d with
  | nil => rfl
  | cons b rest ih =>
    simp only [List.map_cons, List.flatten_cons, toksPlain_append, ih,
      block_toksPlain]
    rfl

/-! ### Claim C7 -/

/-- A markdown document holding only an image. -/
def imgOnlyDoc : List MdBlock :=
  [.paragraph [.image ("photo".toList) ("a.png".toList)]]

/-- C7, counterexample: for the image `![photo](a.png)` the rendered HTML
is `<p><img src="a.png" alt="photo"></p>\n`; the alt text sits inside the
`<img ...>` tag, so the tag-stripping regex deletes it together with the
tag — the extracted text is just the newline and retains no alt text. -/
theorem claim7_cex :
    extractTextFromMarkdown imgOnlyDoc = ['\n'] ∧
    'p' ∈ ("photo".toList) ∧
    'p' ∉ extractTextFromMarkdown imgOnlyDoc := by
  decide

/-- C7, amended: for every markdown document whose text fragments are
free of angle brackets, extraction removes headers, emphasis markers and
link/image syntax and retains link text as plain text (not the target) —
but image alt text is NOT retained: it is deleted together with the
`<img>` tag. -/
theorem claim7_markdown_extraction (d : List MdBlock) (h : mdTagFree d = true) :
    extractTextFromMarkdown d = mdPlain d := by
  have hok : ∀ t ∈ (d.map blockToks).flatten, tokOkB t = true := by
    intro t ht
    rw [List.mem_flatten] at ht
    obtain ⟨l, hl, htl⟩ := ht
    obtain ⟨b, hb, rfl⟩ := List.mem_map.mp hl
    exact List.all_eq_true.mp (List.all_eq_true.mp h b hb) t htl
  show stripTags (toksHtml ((d.map blockToks).flatten)) = mdPlain d
  rw [show toksHtml ((d.map blockToks).flatten) =
      toksHtml ((d.map blockToks).flatten) ++ [] from (List.append_nil _).symm]
  rw [stripTags_toksHtml _ [] hok]
  rw [show stripTags ([] : List Char) = [] from rfl, List.append_nil, md_toksPlain]

/-- A document exercising every construct of the C7 claim. -/
def demoMdDoc : List MdBlock :=
  [.heading 1 [.text ("Title".toList)],
    .paragraph [.strong ("bold".toList), .text (" - see ".toList),
      .link ("docs".toList) ("https://docs.example".toList),
      .image ("pic".toList) ("img.png".toList)]]

/-- Witness for C7: header and emphasis markers gone, link text kept,
image alt text gone. -/
theorem claim7_markdown_extraction_witness :
    extractTextFromMarkdown demoMdDoc = mdPlain demoMdDoc ∧
    mdPlain demoMdDoc = ("Title\nbold - see docs\n".toList) :=
  ⟨claim7_markdown_extraction demoMdDoc (by decide), by decide⟩

end RagPipeline
